import Mathlib

/-!
Shallow embedding of the `caos` crate (`src/lib.rs`): a single-writer,
append-only sequence stored as a linked chain of fixed-capacity segments.

A segment is modelled by its occupied prefix (the first `len` elements of its
buffer), so the chain is a `List (List T)`.  The null `next` pointer of the
tail segment corresponds to the end of the list.  `Writer::append` never
updates `self.tip_segment` (the local cursor `segment` advances, the field
does not), so every append walks from the head segment; the pure function
`appendChain` mirrors that loop.  Atomic loads/stores collapse to ordinary
reads/writes in this sequential embedding.
-/

namespace Caos

/-- `const ALIGNMENT: usize = 64;` -/
def ALIGNMENT : Nat := 64

/-- Models the suffix of the `Writer::append` loop once the walk has run off
the end of the chain: repeatedly `Segment::alloc` a fresh zero-length segment,
link it, and copy `min (remaining, cap)` elements into it.  With `cap = 0` the
source loop would never terminate (`new` asserts `cap > 0`); we return `[]`
in that junk case. -/
def newSegs {T : Type} : Nat → List T → List (List T)
  | _, [] => []
  | 0, _ :: _ => []
  | cap + 1, v :: vs =>
    ((v :: vs).take (cap + 1)) :: newSegs (cap + 1) ((v :: vs).drop (cap + 1))
  termination_by _ vals => vals.length
  decreasing_by simp [List.length_drop]; omega

/-- `Writer::append(values)`: walk the chain from the head (the `tip_segment`
field is never advanced); into each segment with spare capacity copy
`to_copy = min (src_len, cap - segment_len)` elements and bump its length;
a full segment is skipped to its successor; off the end of the chain,
new segments are allocated (`newSegs`). -/
def appendChain {T : Type} (cap : Nat) : List (List T) → List T → List (List T)
  | [], vals => newSegs cap vals
  | s :: rest, vals =>
    (s ++ vals.take (min vals.length (cap - s.length))) ::
      appendChain cap rest (vals.drop (min vals.length (cap - s.length)))

/-- The chain obtained from the freshly built structure (`new` allocates one
zero-length segment) by one `Writer::append` call per chunk. -/
def appendAll {T : Type} (cap : Nat) (chunks : List (List T)) : List (List T) :=
  chunks.foldl (appendChain cap) [[]]

/-- Canonical form of a reachable chain holding the values `vals`:
the initial single empty segment when nothing has been appended,
otherwise segments packed `cap` at a time. -/
def canonChain {T : Type} (cap : Nat) : List T → List (List T)
  | [] => [[]]
  | v :: vs => newSegs cap (v :: vs)

/-- `Reader::last`: walk to the segment whose `next` pointer is null and
return the last element of its occupied prefix.  The chain is never empty in
the source (`new` allocates the head); on `[]` we return `none`. -/
def lastVal {T : Type} : List (List T) → Option T
  | [] => none
  | [s] => s.getLast?
  | _ :: s :: rest => lastVal (s :: rest)

/-- The loop of Rust `slice::binary_search` (`binary_search_by`):
`while left < right { mid = left + size/2; ... }`, returning `Ok(mid)` as soon
as an equal element is hit, `Err` (here `none`) when the window empties.
`values.getD mid key` embeds the in-bounds `self.get_unchecked(mid)`
(`mid < right ≤ values.length` whenever the caller passes
`right ≤ values.length`). -/
def bsearchLoop {T : Type} [LinearOrder T] (values : List T) (key : T) :
    Nat → Nat → Option Nat
  | left, right =>
    if h : left < right then
      if values.getD (left + (right - left) / 2) key < key then
        bsearchLoop values key (left + (right - left) / 2 + 1) right
      else if key < values.getD (left + (right - left) / 2) key then
        bsearchLoop values key left (left + (right - left) / 2)
      else some (left + (right - left) / 2)
    else none
  termination_by left right => right - left
  decreasing_by all_goals omega

/-- `values.binary_search(&key).ok()`. -/
def binarySearch {T : Type} [LinearOrder T] (values : List T) (key : T) :
    Option Nat :=
  bsearchLoop values key 0 values.length

/-- `Reader::position` loop with the accumulated `offset`:
an empty occupied prefix makes `values.last()?` return early with `None`;
`last < key` skips to the next segment adding `segment_length` to the offset;
otherwise `key < first` returns `None`, else the segment is binary searched
and a hit is offset into a logical index. -/
def positionAux {T : Type} [LinearOrder T] (cap : Nat) (key : T) :
    List (List T) → Nat → Option Nat
  | [], _ => none
  | [] :: _, _ => none
  | (v0 :: vs) :: rest, offset =>
    if (v0 :: vs).getLast (List.cons_ne_nil v0 vs) < key then
      positionAux cap key rest (offset + cap)
    else if key < v0 then none
    else (binarySearch (v0 :: vs) key).map (· + offset)

/-- `Reader::position(key)`. -/
def position {T : Type} [LinearOrder T] (cap : Nat) (segs : List (List T))
    (key : T) : Option Nat :=
  positionAux cap key segs 0

/-- `Reader::next_position` loop with the accumulated `offset`:
the skip test is `last <= key`; in the segment whose last element exceeds
`key`, a linear scan returns the first position holding a value `> key`. -/
def nextPositionAux {T : Type} [LinearOrder T] (cap : Nat) (key : T) :
    List (List T) → Nat → Option Nat
  | [], _ => none
  | [] :: _, _ => none
  | (v0 :: vs) :: rest, offset =>
    if (v0 :: vs).getLast (List.cons_ne_nil v0 vs) ≤ key then
      nextPositionAux cap key rest (offset + cap)
    else ((v0 :: vs).findIdx? (fun v => decide (key < v))).map (· + offset)

/-- `Reader::next_position(key)`. -/
def nextPosition {T : Type} [LinearOrder T] (cap : Nat) (segs : List (List T))
    (key : T) : Option Nat :=
  nextPositionAux cap key segs 0

/-- State of an `Iter<T>`: `inner` is the live sub-slice iterator over the
current segment, `nextSegs` the chain hanging off the saved `next` pointer
(null ↔ `[]`). -/
structure IterState (T : Type) where
  inner : List T
  nextSegs : List (List T)
  deriving Repr, DecidableEq

/-- One call of `Iter::next`: drain `inner`; when it is exhausted and `next`
is non-null, load that segment's occupied prefix as the new slice, advance
`next`, and return `self.inner.next()` — a single step, so a zero-length
segment yields `none` even though `next` was advanced. -/
def iterNext {T : Type} : IterState T → Option T × IterState T
  | ⟨v :: vs, next⟩ => (some v, ⟨vs, next⟩)
  | ⟨[], []⟩ => (none, ⟨[], []⟩)
  | ⟨[], [] :: rest⟩ => (none, ⟨[], rest⟩)
  | ⟨[], (v :: vs) :: rest⟩ => (some v, ⟨vs, rest⟩)

/-- `Reader::iter_from(index)`: hop `index / segment_length` successor links
(an early null gives the empty iterator), then slice the reached segment's
occupied prefix from `min (index % segment_length, len)` on. -/
def iterFrom {T : Type} (cap : Nat) (segs : List (List T)) (index : Nat) :
    IterState T :=
  match segs.drop (index / cap) with
  | [] => ⟨[], []⟩
  | s :: rest => ⟨s.drop (min (index % cap) s.length), rest⟩

/-- Elements an iterator still delivers from its saved `next` chain: each
segment's occupied prefix in order, stopping at a zero-length segment
(where `Iter::next` returns `none`). -/
def drain {T : Type} : List (List T) → List T
  | [] => []
  | [] :: _ => []
  | (v :: vs) :: rest => v :: (vs ++ drain rest)

/-- Everything an iterator in state `st` yields before first returning
`none` (see `iterRun_eq_iterNext`). -/
def iterRun {T : Type} (st : IterState T) : List T :=
  st.inner ++ drain st.nextSegs

/-- `new::<T>(segment_length)`, with the element type's alignment passed
explicitly (Lean cannot compute Rust layouts).  The three `assert!`s are the
guards, in source order; `none` models the panic.  The well-typed result is
the initial chain: one zero-length segment. -/
def new (T : Type) (cap align : Nat) : Option (List (List T)) :=
  if 0 < cap then
    if align < ALIGNMENT then
      if ALIGNMENT % align = 0 then some ([[]] : List (List T))
      else none
    else none
  else none

/-! ### Basic facts about the chain-building functions -/

theorem take_min_length {T : Type} (l : List T) (n : Nat) :
    l.take (min l.length n) = l.take n := by
  rcases Nat.le_total l.length n with h | h
  · rw [Nat.min_eq_left h, List.take_of_length_le h, List.take_of_length_le (Nat.le_refl _)]
  · rw [Nat.min_eq_right h]

theorem drop_min_length {T : Type} (l : List T) (n : Nat) :
    l.drop (min l.length n) = l.drop n := by
  rcases Nat.le_total l.length n with h | h
  · rw [Nat.min_eq_left h, List.drop_of_length_le h, List.drop_of_length_le (Nat.le_refl _)]
  · rw [Nat.min_eq_right h]

/-- An append with no remaining input leaves the chain untouched. -/
theorem appendChain_nil {T : Type} (cap : Nat) :
    ∀ segs : List (List T), appendChain cap segs [] = segs := by
  intro segs
  induction segs with
  | nil => simp [appendChain, newSegs]
  | cons s rest ih => simp [appendChain, ih]

theorem newSegs_eq {T : Type} {cap : Nat} (hcap : 0 < cap) {v : List T} (hv : v ≠ []) :
    newSegs cap v = v.take cap :: newSegs cap (v.drop cap) := by
  match cap, hcap, v, hv with
  | cap + 1, _, v0 :: vs, _ => rw [newSegs]

theorem newSegs_ne_nil {T : Type} {cap : Nat} (hcap : 0 < cap) {v : List T} (hv : v ≠ []) :
    newSegs cap v ≠ [] := by
  rw [newSegs_eq hcap hv]
  exact List.cons_ne_nil _ _

theorem flatten_newSegs {T : Type} :
    ∀ (cap : Nat) (v : List T), 0 < cap → (newSegs cap v).flatten = v := by
  intro cap v
  induction cap, v using newSegs.induct with
  | case1 cap => intro _; simp [newSegs]
  | case2 v vs => intro h; omega
  | case3 cap v vs ih =>
    intro _
    rw [newSegs]
    simp only [List.flatten_cons, ih (Nat.succ_pos cap)]
    exact List.take_append_drop _ _

/-- The heart of the development: appending `w` to the packed chain holding
`v` yields the packed chain holding `v ++ w`. -/
theorem appendChain_newSegs {T : Type} :
    ∀ (cap : Nat) (v w : List T), 0 < cap → v ≠ [] →
      appendChain cap (newSegs cap v) w = newSegs cap (v ++ w) := by
  intro cap v
  induction cap, v using newSegs.induct with
  | case1 cap => intro w _ hv; exact absurd rfl hv
  | case2 v vs => intro w h _; omega
  | case3 cap v vs ih =>
    intro w _ _
    rw [newSegs, appendChain]
    by_cases hd : (v :: vs).drop (cap + 1) = []
    · have hlen : (v :: vs).length ≤ cap + 1 := List.drop_eq_nil_iff.mp hd
      have hs : (v :: vs).take (cap + 1) = v :: vs := List.take_of_length_le hlen
      rw [hd, hs]
      simp only [newSegs, appendChain]
      have hmin : min w.length (cap + 1 - (v :: vs).length) =
          min w.length (cap + 1 - (v :: vs).length) := rfl
      rw [newSegs_eq (Nat.succ_pos cap) (by simp : (v :: vs) ++ w ≠ [])]
      rw [List.take_append_eq_append_take, List.drop_append_eq_append_drop]
      rw [List.take_of_length_le hlen, List.drop_of_length_le hlen]
      rw [take_min_length w, drop_min_length w]
      simp
    · have hlen : cap + 1 < (v :: vs).length := by
        by_contra hle
        exact hd (List.drop_eq_nil_iff.mpr (by omega))
      have hslen : ((v :: vs).take (cap + 1)).length = cap + 1 := by
        simp only [List.length_take, List.length_cons] at hlen ⊢
        omega
      rw [hslen]
      simp only [Nat.sub_self, Nat.min_zero, List.take_zero, List.append_nil, List.drop_zero]
      rw [ih w (Nat.succ_pos cap) hd]
      rw [newSegs_eq (Nat.succ_pos cap) (by simp : (v :: vs) ++ w ≠ [])]
      rw [List.take_append_of_le_length (Nat.le_of_lt hlen),
        List.drop_append_of_le_length (Nat.le_of_lt hlen)]

theorem appendChain_canonChain {T : Type} (cap : Nat) (hcap : 0 < cap) (v w : List T) :
    appendChain cap (canonChain cap v) w = canonChain cap (v ++ w) := by
  match v with
  | [] =>
    show appendChain cap [[]] w = canonChain cap w
    rw [appendChain]
    simp only [List.length_nil, Nat.sub_zero, List.nil_append, appendChain]
    rw [take_min_length w, drop_min_length w]
    match w with
    | [] => simp [newSegs, canonChain]
    | w0 :: ws =>
      rw [canonChain, newSegs_eq hcap (List.cons_ne_nil w0 ws)]
  | v0 :: vs =>
    show appendChain cap (newSegs cap (v0 :: vs)) w = canonChain cap ((v0 :: vs) ++ w)
    rw [appendChain_newSegs cap (v0 :: vs) w hcap (List.cons_ne_nil v0 vs)]
    rfl

theorem foldl_appendChain {T : Type} (cap : Nat) (hcap : 0 < cap) :
    ∀ (chunks : List (List T)) (v : List T),
      chunks.foldl (appendChain cap) (canonChain cap v) = canonChain cap (v ++ chunks.flatten) := by
  intro chunks
  induction chunks with
  | nil => intro v; simp
  | cons c cs ih =>
    intro v
    simp only [List.foldl_cons, List.flatten_cons]
    rw [appendChain_canonChain cap hcap, ih, List.append_assoc]

/-- Every reachable chain is the canonical packed chain of its contents. -/
theorem appendAll_eq_canonChain {T : Type} (cap : Nat) (hcap : 0 < cap)
    (chunks : List (List T)) :
    appendAll cap chunks = canonChain cap chunks.flatten := by
  have h := foldl_appendChain cap hcap chunks []
  simpa [appendAll, canonChain] using h

theorem flatten_canonChain {T : Type} (cap : Nat) (hcap : 0 < cap) (v : List T) :
    (canonChain cap v).flatten = v := by
  match v with
  | [] => rfl
  | v0 :: vs => exact flatten_newSegs cap (v0 :: vs) hcap

/-! ### The packing invariant of the segment chain -/

/-- Well-formed chain shape maintained by the writer (beyond the freshly
built `[[]]`): every segment is non-empty and within capacity, and every
segment with a successor is packed to exactly `cap`. -/
def WFChain {T : Type} (cap : Nat) : List (List T) → Prop
  | [] => True
  | [s] => s ≠ [] ∧ s.length ≤ cap
  | s :: s' :: rest => s ≠ [] ∧ s.length = cap ∧ WFChain cap (s' :: rest)

theorem WFChain_cons_iff {T : Type} (cap : Nat) (s : List T) (rest : List (List T)) :
    WFChain cap (s :: rest) ↔
      s ≠ [] ∧ s.length ≤ cap ∧ (rest ≠ [] → s.length = cap) ∧ WFChain cap rest := by
  match rest with
  | [] => simp [WFChain]
  | r :: rs =>
    simp only [WFChain, ne_eq, List.cons_ne_nil, not_false_eq_true, forall_const]
    constructor
    · rintro ⟨h1, h2, h3⟩; exact ⟨h1, Nat.le_of_eq h2, h2, h3⟩
    · rintro ⟨h1, _, h2, h3⟩; exact ⟨h1, h2, h3⟩

theorem WFChain_mem_ne_nil {T : Type} {cap : Nat} :
    ∀ {segs : List (List T)}, WFChain cap segs → ∀ s ∈ segs, s ≠ [] := by
  intro segs
  induction segs with
  | nil => intro _ s hs; simp at hs
  | cons t rest ih =>
    intro hwf s hs
    rw [WFChain_cons_iff] at hwf
    rcases List.mem_cons.mp hs with rfl | hs
    · exact hwf.1
    · exact ih hwf.2.2.2 s hs

theorem WFChain_mem_le {T : Type} {cap : Nat} :
    ∀ {segs : List (List T)}, WFChain cap segs → ∀ s ∈ segs, s.length ≤ cap := by
  intro segs
  induction segs with
  | nil => intro _ s hs; simp at hs
  | cons t rest ih =>
    intro hwf s hs
    rw [WFChain_cons_iff] at hwf
    rcases List.mem_cons.mp hs with rfl | hs
    · exact hwf.2.1
    · exact ih hwf.2.2.2 s hs

theorem WFChain_dropLast {T : Type} {cap : Nat} :
    ∀ {segs : List (List T)}, WFChain cap segs → ∀ s ∈ segs.dropLast, s.length = cap := by
  intro segs
  induction segs with
  | nil => intro _ s hs; simp at hs
  | cons t rest ih =>
    intro hwf s hs
    rw [WFChain_cons_iff] at hwf
    match rest, hs with
    | [], hs => simp at hs
    | r :: rs, hs =>
      rw [List.dropLast_cons₂] at hs
      rcases List.mem_cons.mp hs with rfl | hs
      · exact hwf.2.2.1 (List.cons_ne_nil r rs)
      · exact ih hwf.2.2.2 s hs

theorem WFChain_newSegs {T : Type} :
    ∀ (cap : Nat) (v : List T), 0 < cap → WFChain cap (newSegs cap v) := by
  intro cap v
  induction cap, v using newSegs.induct with
  | case1 cap => intro _; simp [newSegs, WFChain]
  | case2 v vs => intro h; omega
  | case3 cap v vs ih =>
    intro _
    rw [newSegs]
    rw [WFChain_cons_iff]
    refine ⟨?_, ?_, ?_, ?_⟩
    · simp [List.take_eq_nil_iff]
    · simp
    · intro hne
      have hd : (v :: vs).drop (cap + 1) ≠ [] := by
        intro h
        rw [h] at hne
        exact hne (by simp [newSegs])
      have hlen : cap + 1 < (v :: vs).length := by
        have h2 := List.drop_eq_nil_iff.not.mp hd
        omega
      simp only [List.length_take, List.length_cons] at hlen ⊢
      omega
    · exact ih (Nat.succ_pos cap)

/-- A chain of non-empty segments is drained in full by the iterator. -/
theorem drain_eq_flatten {T : Type} :
    ∀ {segs : List (List T)}, (∀ s ∈ segs, s ≠ []) → drain segs = segs.flatten := by
  intro segs
  induction segs with
  | nil => intro _; rfl
  | cons s rest ih =>
    intro h
    obtain ⟨v, vs, rfl⟩ := List.exists_cons_of_ne_nil (h s (List.mem_cons_self s rest))
    simp only [drain, List.flatten_cons, List.cons_append]
    rw [ih (fun u hu => h u (List.mem_cons_of_mem _ hu))]

/-! ### Sorted-list helpers -/

theorem sorted_getD_le {T : Type} [LinearOrder T] {l : List T}
    (hs : l.Sorted (· ≤ ·)) {i j : Nat} (hij : i ≤ j) (hj : j < l.length)
    (d : T) : l.getD i d ≤ l.getD j d := by
  have hi : i < l.length := Nat.lt_of_le_of_lt hij hj
  rw [List.getD_eq_getElem?_getD, List.getD_eq_getElem?_getD,
    List.getElem?_eq_getElem hi, List.getElem?_eq_getElem hj, Option.getD_some,
    Option.getD_some]
  rcases Nat.lt_or_ge i j with h | h
  · exact List.pairwise_iff_getElem.mp hs i j hi hj h
  · have hij2 : i = j := Nat.le_antisymm hij h
    subst hij2
    exact le_refl _

theorem sorted_le_getLast {T : Type} [LinearOrder T] {l : List T}
    (hs : l.Sorted (· ≤ ·)) {a : T} (ha : a ∈ l) (h : l ≠ []) :
    a ≤ l.getLast h := by
  obtain ⟨i, hi, rfl⟩ := List.getElem_of_mem ha
  rw [List.getLast_eq_getElem]
  rcases Nat.lt_or_ge i (l.length - 1) with hlt | hge
  · exact List.pairwise_iff_getElem.mp hs i (l.length - 1) hi (by omega) hlt
  · have hieq : i = l.length - 1 := by omega
    subst hieq
    exact le_refl _

theorem sorted_head_le {T : Type} [LinearOrder T] {v0 : T} {vs : List T}
    (hs : (v0 :: vs).Sorted (· ≤ ·)) {a : T} (ha : a ∈ v0 :: vs) :
    v0 ≤ a := by
  rcases List.mem_cons.mp ha with rfl | ha
  · exact le_refl _
  · exact (List.pairwise_cons.mp hs).1 a ha

/-! ### Binary search -/

theorem bsearchLoop_sound {T : Type} [LinearOrder T] (values : List T) (key : T) :
    ∀ left right, right ≤ values.length → ∀ p,
      bsearchLoop values key left right = some p →
      p < values.length ∧ values[p]? = some key := by
  intro left right
  induction left, right using bsearchLoop.induct values key with
  | case1 left right hlr hlt ih =>
    intro hle p heq
    rw [bsearchLoop] at heq
    simp only [hlr, ↓reduceDIte, hlt, ↓reduceIte] at heq
    exact ih hle p heq
  | case2 left right hlr hlt hgt ih =>
    intro hle p heq
    rw [bsearchLoop] at heq
    simp only [hlr, ↓reduceDIte, hlt, ↓reduceIte, hgt] at heq
    exact ih (by omega) p heq
  | case3 left right hlr hlt hgt =>
    intro hle p heq
    rw [bsearchLoop] at heq
    simp only [hlr, ↓reduceDIte, hlt, ↓reduceIte, hgt, Option.some.injEq] at heq
    rcases heq with rfl
    have hp : left + (right - left) / 2 < values.length := by omega
    have hk : values.getD (left + (right - left) / 2) key = key :=
      le_antisymm (not_lt.mp hgt) (not_lt.mp hlt)
    rw [List.getD_eq_getElem?_getD, List.getElem?_eq_getElem hp,
      Option.getD_some] at hk
    refine ⟨hp, ?_⟩
    rw [List.getElem?_eq_getElem hp, hk]
  | case4 left right hlr =>
    intro _ p heq
    rw [bsearchLoop] at heq
    simp [hlr] at heq

theorem bsearchLoop_complete {T : Type} [LinearOrder T] (values : List T) (key : T)
    (hs : values.Sorted (· ≤ ·)) :
    ∀ left right, right ≤ values.length →
      (∃ i, left ≤ i ∧ i < right ∧ values[i]? = some key) →
      ∃ p, bsearchLoop values key left right = some p := by
  intro left right
  induction left, right using bsearchLoop.induct values key with
  | case1 left right hlr hlt ih =>
    rintro hle ⟨i, hli, hir, hi⟩
    have hilen : i < values.length := by omega
    have hmidlen : left + (right - left) / 2 < values.length := by omega
    have h2 : values.getD i key = key := by
      rw [List.getD_eq_getElem?_getD, hi, Option.getD_some]
    have himid : left + (right - left) / 2 < i := by
      by_contra hc
      have h1 : values.getD i key ≤ values.getD (left + (right - left) / 2) key :=
        sorted_getD_le hs (by omega) hmidlen key
      rw [h2] at h1
      exact absurd (lt_of_le_of_lt h1 hlt) (lt_irrefl key)
    obtain ⟨p, hp⟩ := ih hle ⟨i, by omega, hir, hi⟩
    refine ⟨p, ?_⟩
    rw [bsearchLoop]
    simp only [hlr, ↓reduceDIte, hlt, ↓reduceIte]
    exact hp
  | case2 left right hlr hlt hgt ih =>
    rintro hle ⟨i, hli, hir, hi⟩
    have hilen : i < values.length := by omega
    have hmidlen : left + (right - left) / 2 < values.length := by omega
    have h2 : values.getD i key = key := by
      rw [List.getD_eq_getElem?_getD, hi, Option.getD_some]
    have himid : i < left + (right - left) / 2 := by
      by_contra hc
      have h1 : values.getD (left + (right - left) / 2) key ≤ values.getD i key :=
        sorted_getD_le hs (by omega) hilen key
      rw [h2] at h1
      exact absurd (lt_of_lt_of_le hgt h1) (lt_irrefl key)
    obtain ⟨p, hp⟩ := ih (by omega) ⟨i, hli, himid, hi⟩
    refine ⟨p, ?_⟩
    rw [bsearchLoop]
    simp only [hlr, ↓reduceDIte, hlt, ↓reduceIte, hgt]
    exact hp
  | case3 left right hlr hlt hgt =>
    intro _ _
    refine ⟨left + (right - left) / 2, ?_⟩
    rw [bsearchLoop]
    simp only [hlr, ↓reduceDIte, hlt, ↓reduceIte, hgt]
  | case4 left right hlr =>
    rintro _ ⟨i, hli, hir, _⟩
    omega

theorem binarySearch_sound {T : Type} [LinearOrder T] {values : List T} {key : T} {p : Nat}
    (h : binarySearch values key = some p) :
    p < values.length ∧ values[p]? = some key :=
  bsearchLoop_sound values key 0 values.length (Nat.le_refl _) p h

theorem binarySearch_complete {T : Type} [LinearOrder T] {values : List T} {key : T}
    (hs : values.Sorted (· ≤ ·)) (hk : key ∈ values) :
    ∃ p, binarySearch values key = some p := by
  obtain ⟨i, hi, rfl⟩ := List.getElem_of_mem hk
  exact bsearchLoop_complete values _ hs 0 values.length (Nat.le_refl _)
    ⟨i, Nat.zero_le i, hi, List.getElem?_eq_getElem hi⟩

/-! ### Correctness of `Reader::position` -/

theorem positionAux_not_mem {T : Type} [LinearOrder T] (cap : Nat) (key : T) :
    ∀ (segs : List (List T)) (offset : Nat), key ∉ segs.flatten →
      positionAux cap key segs offset = none := by
  intro segs
  induction segs with
  | nil => intro offset _; rfl
  | cons s rest ih =>
    intro offset hk
    match s with
    | [] => rfl
    | v0 :: vs =>
      rw [positionAux]
      simp only [List.flatten_cons, List.mem_append, not_or] at hk
      by_cases hlt : (v0 :: vs).getLast (List.cons_ne_nil v0 vs) < key
      · rw [if_pos hlt]
        exact ih _ hk.2
      · rw [if_neg hlt]
        by_cases hfirst : key < v0
        · rw [if_pos hfirst]
        · rw [if_neg hfirst]
          rcases hbs : binarySearch (v0 :: vs) key with _ | p
          · rfl
          · obtain ⟨hp, hget⟩ := binarySearch_sound hbs
            exact absurd (List.getElem?_mem hget) hk.1

theorem positionAux_mem {T : Type} [LinearOrder T] {cap : Nat} :
    ∀ (segs : List (List T)), WFChain cap segs →
      segs.flatten.Sorted (· ≤ ·) → ∀ key, key ∈ segs.flatten → ∀ offset,
      ∃ p, positionAux cap key segs offset = some (p + offset) ∧
        segs.flatten[p]? = some key := by
  intro segs
  induction segs with
  | nil => intro _ _ key hk; simp at hk
  | cons s rest ih =>
    intro hwf hs key hk offset
    rw [WFChain_cons_iff] at hwf
    obtain ⟨v0, vs, rfl⟩ := List.exists_cons_of_ne_nil hwf.1
    simp only [List.flatten_cons] at hs hk ⊢
    have hsorted_s : (v0 :: vs).Sorted (· ≤ ·) := (List.pairwise_append.mp hs).1
    have hsorted_rest : rest.flatten.Sorted (· ≤ ·) := (List.pairwise_append.mp hs).2.1
    have hcross := (List.pairwise_append.mp hs).2.2
    rw [positionAux]
    by_cases hlt : (v0 :: vs).getLast (List.cons_ne_nil v0 vs) < key
    · have hks : key ∉ v0 :: vs := by
        intro hmem
        exact absurd hlt
          (not_lt.mpr (sorted_le_getLast hsorted_s hmem (List.cons_ne_nil v0 vs)))
      have hkrest : key ∈ rest.flatten := by
        rcases List.mem_append.mp hk with h | h
        · exact absurd h hks
        · exact h
      have hrest_ne : rest ≠ [] := by
        intro h; rw [h] at hkrest; simp at hkrest
      have hslen : (v0 :: vs).length = cap := hwf.2.2.1 hrest_ne
      rw [if_pos hlt]
      obtain ⟨p, heq, hget⟩ := ih hwf.2.2.2 hsorted_rest key hkrest (offset + cap)
      refine ⟨p + cap, ?_, ?_⟩
      · rw [heq]; congr 1; omega
      · rw [List.getElem?_append_right (by omega : (v0 :: vs).length ≤ p + cap), hslen]
        simpa using hget
    · rw [if_neg hlt]
      have hks : key ∈ v0 :: vs := by
        rcases List.mem_append.mp hk with h | h
        · exact h
        · have h1 : (v0 :: vs).getLast (List.cons_ne_nil v0 vs) ≤ key :=
            hcross _ (List.getLast_mem _) key h
          rw [show key = (v0 :: vs).getLast (List.cons_ne_nil v0 vs) from
            le_antisymm (not_lt.mp hlt) h1]
          exact List.getLast_mem _
      have hfirst : ¬ key < v0 := not_lt.mpr (sorted_head_le hsorted_s hks)
      rw [if_neg hfirst]
      obtain ⟨p, hbs⟩ := binarySearch_complete hsorted_s hks
      obtain ⟨hp, hget⟩ := binarySearch_sound hbs
      refine ⟨p, ?_, ?_⟩
      · rw [hbs]; rfl
      · rw [List.getElem?_append_left hp]
        exact hget

/-- C1: for every sequence of values appended in non-decreasing order (in any
chunking across `Writer::append` calls), `Reader::position v` returns
`some i` with the `i`-th logical element equal to `v`, for every `v` in the
sequence; and it returns `none` for every key that does not occur. -/
theorem position_correct {T : Type} [LinearOrder T] (cap : Nat) (hcap : 0 < cap)
    (chunks : List (List T)) (hs : chunks.flatten.Sorted (· ≤ ·)) :
    (∀ v ∈ chunks.flatten, ∃ i, position cap (appendAll cap chunks) v = some i ∧
        (appendAll cap chunks).flatten[i]? = some v) ∧
    (∀ k, k ∉ chunks.flatten → position cap (appendAll cap chunks) k = none) := by
  rw [appendAll_eq_canonChain cap hcap]
  have hflat : (canonChain cap chunks.flatten).flatten = chunks.flatten :=
    flatten_canonChain cap hcap chunks.flatten
  constructor
  · intro v hv
    rcases hf : chunks.flatten with _ | ⟨w, ws⟩
    · rw [hf] at hv; simp at hv
    · rw [hf] at hs hv
      have hwf : WFChain cap (canonChain cap (w :: ws)) :=
        WFChain_newSegs cap (w :: ws) hcap
      have hflat2 : (canonChain cap (w :: ws)).flatten = w :: ws :=
        flatten_canonChain cap hcap (w :: ws)
      obtain ⟨p, heq, hget⟩ := positionAux_mem _ hwf (hflat2.symm ▸ hs) v
        (hflat2.symm ▸ hv) 0
      exact ⟨p, by simpa [position] using heq, hget⟩
  · intro k hk
    exact positionAux_not_mem cap k _ 0 (hflat.symm ▸ hk)

theorem position_correct_witness :
    0 < 3 ∧
    (∃ i, position 3 (appendAll 3 [[0, 13], [26, 39]]) (26 : ℕ) = some i ∧
        (appendAll 3 [[0, 13], [26, 39]]).flatten[i]? = some 26) ∧
    position 3 (appendAll 3 [[0, 13], [26, 39]]) (7 : ℕ) = none := by
  have h := position_correct 3 (by decide) [[0, 13], [26, 39]] (by decide)
  exact ⟨by decide, h.1 26 (by decide), h.2 7 (by decide)⟩

/-! ### Correctness of `Reader::next_position` -/

theorem findIdx?_some_spec {α : Type} {p : α → Bool} {l : List α} {i : Nat}
    (h : l.findIdx? p = some i) :
    ∃ x, l[i]? = some x ∧ p x = true ∧
      ∀ j, j < i → ∃ y, l[j]? = some y ∧ p y = false := by
  rw [List.findIdx?_eq_some_iff_findIdx_eq] at h
  obtain ⟨hlen, hfi⟩ := h
  subst hfi
  obtain ⟨x, hx⟩ : ∃ x, l[l.findIdx p]? = some x := ⟨_, List.getElem?_eq_getElem hlen⟩
  refine ⟨x, hx, ?_, ?_⟩
  · simpa using List.findIdx_of_getElem?_eq_some hx
  · intro j hj
    have hjlen : j < l.length := Nat.lt_trans hj hlen
    obtain ⟨y, hy⟩ : ∃ y, l[j]? = some y := ⟨_, List.getElem?_eq_getElem hjlen⟩
    refine ⟨y, hy, ?_⟩
    have h2 := List.not_of_lt_findIdx (p := p) hj
    rw [List.getElem?_eq_getElem hjlen] at hy
    rw [← Option.some_inj.mp hy]
    exact h2

theorem nextPositionAux_eq {T : Type} [LinearOrder T] {cap : Nat} :
    ∀ (segs : List (List T)), WFChain cap segs →
      segs.flatten.Sorted (· ≤ ·) → ∀ (key : T) (offset : Nat),
      nextPositionAux cap key segs offset =
        (segs.flatten.findIdx? (fun v => decide (key < v))).map (· + offset) := by
  intro segs
  induction segs with
  | nil => intro _ _ key offset; simp [nextPositionAux]
  | cons s rest ih =>
    intro hwf hs key offset
    rw [WFChain_cons_iff] at hwf
    obtain ⟨v0, vs, rfl⟩ := List.exists_cons_of_ne_nil hwf.1
    simp only [List.flatten_cons]
    have hsorted_s : (v0 :: vs).Sorted (· ≤ ·) := (List.pairwise_append.mp hs).1
    have hsorted_rest : rest.flatten.Sorted (· ≤ ·) := (List.pairwise_append.mp hs).2.1
    rw [nextPositionAux]
    by_cases hle : (v0 :: vs).getLast (List.cons_ne_nil v0 vs) ≤ key
    · rw [if_pos hle]
      have hall : ∀ x ∈ v0 :: vs, (fun v => decide (key < v)) x = false := by
        intro x hx
        simp only [decide_eq_false_iff_not, not_lt]
        exact le_trans (sorted_le_getLast hsorted_s hx (List.cons_ne_nil v0 vs)) hle
      have hseg : (v0 :: vs).findIdx? (fun v => decide (key < v)) = none :=
        List.findIdx?_eq_none_iff.mpr hall
      rw [List.findIdx?_append, hseg, Option.none_or]
      rw [ih hwf.2.2.2 hsorted_rest key (offset + cap)]
      rcases hfi : rest.flatten.findIdx? (fun v => decide (key < v)) with _ | q
      · rfl
      · have hrest_ne : rest ≠ [] := by
          intro h
          subst h
          simp at hfi
        have hslen : (v0 :: vs).length = cap := hwf.2.2.1 hrest_ne
        simp only [Option.map_some']
        congr 1
        omega
    · rw [if_neg hle]
      have hex : ∃ x, x ∈ v0 :: vs ∧ (fun v => decide (key < v)) x = true :=
        ⟨_, List.getLast_mem (List.cons_ne_nil v0 vs), by simpa using not_le.mp hle⟩
      have hseg := List.findIdx?_eq_some_of_exists hex
      rw [List.findIdx?_append, hseg, Option.or_some]

/-- C2: with a non-decreasing appended sequence, `Reader::next_position key`
returns `some i` exactly when `i` is the smallest logical index holding an
element strictly greater than `key`, and `none` when no appended element
exceeds `key`. -/
theorem nextPosition_correct {T : Type} [LinearOrder T] (cap : Nat) (hcap : 0 < cap)
    (chunks : List (List T)) (hs : chunks.flatten.Sorted (· ≤ ·)) (key : T) :
    (∀ i, nextPosition cap (appendAll cap chunks) key = some i →
      (∃ x, chunks.flatten[i]? = some x ∧ key < x) ∧
      ∀ j, j < i → ∃ y, chunks.flatten[j]? = some y ∧ y ≤ key) ∧
    (nextPosition cap (appendAll cap chunks) key = none →
      ∀ x ∈ chunks.flatten, x ≤ key) := by
  rw [appendAll_eq_canonChain cap hcap]
  rcases hf : chunks.flatten with _ | ⟨w, ws⟩
  · constructor
    · intro i h
      simp [nextPosition, nextPositionAux, canonChain] at h
    · intro _ x hx
      simp at hx
  · rw [hf] at hs
    have hwf : WFChain cap (canonChain cap (w :: ws)) :=
      WFChain_newSegs cap (w :: ws) hcap
    have hflat : (canonChain cap (w :: ws)).flatten = w :: ws :=
      flatten_canonChain cap hcap (w :: ws)
    have heq : nextPosition cap (canonChain cap (w :: ws)) key =
        ((w :: ws).findIdx? (fun v => decide (key < v))).map (· + 0) := by
      rw [nextPosition, nextPositionAux_eq _ hwf (hflat.symm ▸ hs) key 0, hflat]
    constructor
    · intro i h
      rw [heq] at h
      rcases hfi : (w :: ws).findIdx? (fun v => decide (key < v)) with _ | q
      · rw [hfi] at h; simp at h
      · rw [hfi] at h
        simp only [Option.map_some', Option.some.injEq] at h
        obtain ⟨x, hx, hpx, hprev⟩ := findIdx?_some_spec hfi
        have hiq : i = q := by omega
        subst hiq
        constructor
        · exact ⟨x, hx, of_decide_eq_true hpx⟩
        · intro j hj
          obtain ⟨y, hy, hpy⟩ := hprev j hj
          refine ⟨y, hy, ?_⟩
          have := of_decide_eq_false hpy
          exact not_lt.mp this
    · intro h
      rw [heq] at h
      rcases hfi : (w :: ws).findIdx? (fun v => decide (key < v)) with _ | q
      · intro x hx
        have := List.findIdx?_eq_none_iff.mp hfi x hx
        simpa [not_lt] using this
      · rw [hfi] at h; simp at h

theorem nextPosition_correct_witness :
    (0 < 3 ∧ ([[0, 13, 26, 39]] : List (List ℕ)).flatten.Sorted (· ≤ ·)) ∧
    (∀ x ∈ ([[0, 13, 26, 39]] : List (List ℕ)).flatten, x ≤ 39) ∧
    nextPosition 3 (appendAll 3 [[0, 13, 26, 39]]) (0 : ℕ) = some 1 ∧
    nextPosition 3 (appendAll 3 [[0, 13, 26, 39]]) (12 : ℕ) = some 1 ∧
    nextPosition 3 (appendAll 3 [[0, 13, 26, 39]]) (13 : ℕ) = some 2 ∧
    nextPosition 3 (appendAll 3 [[0, 13, 26, 39]]) (26 : ℕ) = some 3 ∧
    nextPosition 3 (appendAll 3 [[0, 13, 26, 39]]) (39 : ℕ) = none ∧
    nextPosition 3 (appendAll 3 [[0, 13, 26, 39]]) (40 : ℕ) = none := by
  have hev : ∀ k : ℕ, nextPosition 3 (appendAll 3 [[0, 13, 26, 39]]) k =
      nextPositionAux 3 k [[0, 13, 26], [39]] 0 := by
    intro k
    simp [appendAll, appendChain, newSegs, nextPosition]
  refine ⟨⟨by decide, by decide⟩,
    (nextPosition_correct 3 (by decide) [[0, 13, 26, 39]] (by decide) 39).2 ?_,
    ?_, ?_, ?_, ?_, ?_, ?_⟩ <;>
    simp [hev, nextPositionAux]

/-! ### Correctness of `Reader::last` -/

theorem lastVal_newSegs {T : Type} :
    ∀ (cap : Nat) (v : List T), 0 < cap → v ≠ [] →
      lastVal (newSegs cap v) = v.getLast? := by
  intro cap v
  induction cap, v using newSegs.induct with
  | case1 cap => intro _ hv; exact absurd rfl hv
  | case2 v vs => intro h _; omega
  | case3 cap v vs ih =>
    intro _ _
    rw [newSegs]
    by_cases hd : (v :: vs).drop (cap + 1) = []
    · rw [hd]
      simp only [newSegs]
      rw [lastVal, List.take_of_length_le (List.drop_eq_nil_iff.mp hd)]
    · have hne := newSegs_ne_nil (Nat.succ_pos cap) hd
      obtain ⟨t, ts, hts⟩ := List.exists_cons_of_ne_nil hne
      rw [hts, lastVal, ← hts, ih (Nat.succ_pos cap) hd]
      obtain ⟨a, ha⟩ := Option.isSome_iff_exists.mp (List.getLast?_isSome.mpr hd)
      conv_rhs => rw [← List.take_append_drop (cap + 1) (v :: vs)]
      rw [List.getLast?_append, ha, Option.or_some]

/-- C4: `Reader::last` returns the most recently appended element (the one at
the largest logical index) and `none` exactly when nothing has been appended;
no sortedness is required. -/
theorem last_correct {T : Type} (cap : Nat) (hcap : 0 < cap)
    (chunks : List (List T)) :
    lastVal (appendAll cap chunks) = chunks.flatten.getLast? := by
  rw [appendAll_eq_canonChain cap hcap]
  rcases hf : chunks.flatten with _ | ⟨w, ws⟩
  · rfl
  · exact lastVal_newSegs cap (w :: ws) hcap (List.cons_ne_nil w ws)

theorem last_correct_witness :
    0 < 3 ∧ lastVal (appendAll 3 [[5, 1], [2]]) = some (2 : ℕ) ∧
    lastVal (appendAll 3 ([] : List (List ℕ))) = none :=
  ⟨by decide, (last_correct 3 (by decide) [[5, 1], [2]]).trans (by decide),
    (last_correct 3 (by decide) []).trans (by decide)⟩

/-! ### Correctness of `Reader::iter_from` and `Iter::next` -/

/-- `iterRun st` is exactly the sequence of elements successive `Iter::next`
calls deliver before the first `none`. -/
theorem iterRun_eq_iterNext {T : Type} (st : IterState T) :
    iterRun st = (match iterNext st with
      | (none, _) => []
      | (some v, st') => v :: iterRun st') := by
  obtain ⟨inner, nextSegs⟩ := st
  match inner, nextSegs with
  | v :: vs, next => rfl
  | [], [] => rfl
  | [], [] :: rest => rfl
  | [], (v :: vs) :: rest => rfl

theorem drop_min_self {T : Type} (l : List T) (n : Nat) :
    l.drop (min n l.length) = l.drop n := by
  rcases Nat.le_total n l.length with h | h
  · rw [Nat.min_eq_left h]
  · rw [Nat.min_eq_right h, List.drop_of_length_le h,
      List.drop_of_length_le (Nat.le_refl _)]

theorem iterRun_iterFrom_newSegs {T : Type} :
    ∀ (cap : Nat) (v : List T), 0 < cap → v ≠ [] → ∀ k,
      iterRun (iterFrom cap (newSegs cap v) k) = v.drop k := by
  intro cap v
  induction cap, v using newSegs.induct with
  | case1 cap => intro _ hv; exact absurd rfl hv
  | case2 v vs => intro h _; omega
  | case3 cap v vs ih =>
    intro _ _ k
    rw [newSegs]
    by_cases hk : k < cap + 1
    · have hdiv : k / (cap + 1) = 0 := Nat.div_eq_of_lt hk
      have hmod : k % (cap + 1) = k := Nat.mod_eq_of_lt hk
      have hiter : iterFrom (cap + 1)
          ((v :: vs).take (cap + 1) :: newSegs (cap + 1) ((v :: vs).drop (cap + 1))) k =
          ⟨((v :: vs).take (cap + 1)).drop
              (min k ((v :: vs).take (cap + 1)).length),
            newSegs (cap + 1) ((v :: vs).drop (cap + 1))⟩ := by
        simp only [iterFrom, hdiv, hmod, List.drop_zero]
      rw [hiter]
      have hdrain : drain (newSegs (cap + 1) ((v :: vs).drop (cap + 1))) =
          (v :: vs).drop (cap + 1) := by
        rw [drain_eq_flatten
          (WFChain_mem_ne_nil (WFChain_newSegs (cap + 1) _ (Nat.succ_pos cap)))]
        exact flatten_newSegs (cap + 1) _ (Nat.succ_pos cap)
      show ((v :: vs).take (cap + 1)).drop (min k ((v :: vs).take (cap + 1)).length) ++
          drain (newSegs (cap + 1) ((v :: vs).drop (cap + 1))) = (v :: vs).drop k
      rw [hdrain, drop_min_self]
      conv_rhs => rw [← List.take_append_drop (cap + 1) (v :: vs)]
      rw [List.drop_append_eq_append_drop]
      congr 1
      rcases Nat.le_total k ((v :: vs).take (cap + 1)).length with h | h
      · rw [Nat.sub_eq_zero_of_le h, List.drop_zero]
      · have hlen2 : (v :: vs).length ≤ cap + 1 := by
          simp only [List.length_take, List.length_cons] at h
          simp only [List.length_cons]
          omega
        have hnil : (v :: vs).drop (cap + 1) = [] := List.drop_eq_nil_iff.mpr hlen2
        rw [hnil]
        simp
    · obtain ⟨m, rfl⟩ : ∃ m, k = m + (cap + 1) := ⟨k - (cap + 1), by omega⟩
      have hiter : iterFrom (cap + 1)
          ((v :: vs).take (cap + 1) :: newSegs (cap + 1) ((v :: vs).drop (cap + 1)))
          (m + (cap + 1)) =
          iterFrom (cap + 1) (newSegs (cap + 1) ((v :: vs).drop (cap + 1))) m := by
        simp only [iterFrom, Nat.add_div_right _ (Nat.succ_pos cap),
          Nat.add_mod_right, List.drop_succ_cons]
      rw [hiter]
      by_cases hd : (v :: vs).drop (cap + 1) = []
      · have hlen : (v :: vs).length ≤ cap + 1 := List.drop_eq_nil_iff.mp hd
        rw [hd]
        have : iterFrom (cap + 1) (newSegs (cap + 1) ([] : List T)) m =
            ⟨[], []⟩ := by
          simp [newSegs, iterFrom]
        rw [this]
        have : (v :: vs).drop (m + (cap + 1)) = [] :=
          List.drop_eq_nil_iff.mpr (by omega)
        rw [this]
        rfl
      · rw [ih (Nat.succ_pos cap) hd m, List.drop_drop]
        congr 1
        omega

/-- C3: the iterator returned by `Reader::iter_from k` yields exactly the
logical elements at indices `k, k+1, …` in order (all of them for `k = 0`,
and the empty sequence — not an error — once `k` is at or past the current
length). -/
theorem iterFrom_correct {T : Type} (cap : Nat) (hcap : 0 < cap)
    (chunks : List (List T)) (k : Nat) :
    iterRun (iterFrom cap (appendAll cap chunks) k) =
      (appendAll cap chunks).flatten.drop k := by
  rw [appendAll_eq_canonChain cap hcap, flatten_canonChain cap hcap]
  rcases hf : chunks.flatten with _ | ⟨w, ws⟩
  · rcases Nat.eq_zero_or_pos (k / cap) with h | h
    · simp [canonChain, iterFrom, h, iterRun, drain]
    · have hdrop : ([[]] : List (List T)).drop (k / cap) = [] :=
        List.drop_eq_nil_iff.mpr (by simpa using h)
      simp [canonChain, iterFrom, hdrop, iterRun, drain]
  · exact iterRun_iterFrom_newSegs cap (w :: ws) hcap (List.cons_ne_nil w ws) k

theorem iterFrom_correct_witness :
    0 < 3 ∧
    iterRun (iterFrom 3 (appendAll 3 [[10, 11, 12, 13, 14]]) 4) =
      (appendAll 3 [[10, 11, 12, 13, 14]]).flatten.drop 4 ∧
    iterRun (iterFrom 3 (appendAll 3 [[10, 11, 12, 13, 14]]) 4) = [(14 : ℕ)] ∧
    iterRun (iterFrom 3 (appendAll 3 [[10, 11, 12, 13, 14]]) 9) = ([] : List ℕ) := by
  refine ⟨by decide, iterFrom_correct 3 (by decide) [[10, 11, 12, 13, 14]] 4, ?_, ?_⟩ <;>
    simp [appendAll, appendChain, newSegs, iterRun, iterFrom, drain]

/-! ### Chunked appends agree with a single append -/

/-- C5: appending a sequence in chunks of arbitrary sizes, one
`Writer::append` call per chunk, yields a structure on which `position`,
`next_position`, `last` and `iter_from` answer exactly as they do after
appending the whole sequence in a single call. -/
theorem chunked_append_agrees {T : Type} [LinearOrder T] (cap : Nat)
    (hcap : 0 < cap) (chunks : List (List T)) :
    (∀ key, position cap (appendAll cap chunks) key =
      position cap (appendChain cap [[]] chunks.flatten) key) ∧
    (∀ key, nextPosition cap (appendAll cap chunks) key =
      nextPosition cap (appendChain cap [[]] chunks.flatten) key) ∧
    lastVal (appendAll cap chunks) = lastVal (appendChain cap [[]] chunks.flatten) ∧
    ∀ k, iterRun (iterFrom cap (appendAll cap chunks) k) =
      iterRun (iterFrom cap (appendChain cap [[]] chunks.flatten) k) := by
  have hchains : appendAll cap chunks = appendChain cap [[]] chunks.flatten := by
    rw [appendAll_eq_canonChain cap hcap]
    have h := appendChain_canonChain cap hcap [] chunks.flatten
    simpa [canonChain] using h.symm
  rw [hchains]
  exact ⟨fun _ => rfl, fun _ => rfl, rfl, fun _ => rfl⟩

theorem chunked_append_agrees_witness :
    0 < 2 ∧
    position 2 (appendAll 2 [[1], [2, 3]]) (3 : ℕ) =
      position 2 (appendChain 2 [[]] [1, 2, 3]) 3 ∧
    lastVal (appendAll 2 [[1], [2, 3]]) = lastVal (appendChain 2 [[]] [(1 : ℕ), 2, 3]) :=
  ⟨by decide, (chunked_append_agrees 2 (by decide) [[1], [2, 3]]).1 3,
    (chunked_append_agrees 2 (by decide) [[1], [2, 3]]).2.2.1⟩

/-! ### Construction guards -/

/-- C6 counterexample: the claim admits element alignment exactly 64
(`align ≤ 64` with `64 % align = 0`), but `new` asserts
`align_of::<T>() < ALIGNMENT` strictly, so alignment 64 panics even though
the claim's preconditions hold (capacity `1 > 0`, `64 ≤ 64`, `64 % 64 = 0`). -/
theorem new_rejects_alignment_64 :
    (0 < 1 ∧ (64 : Nat) ≤ ALIGNMENT ∧ ALIGNMENT % 64 = 0) ∧
    new ℕ 1 64 = none :=
  ⟨⟨by decide, by decide, by decide⟩, by decide⟩

/-- C6 (amended): `new` returns a (writer, reader) pair over the fresh
one-empty-segment chain exactly when `segment_length > 0`, the element
alignment is strictly below 64 and divides 64; otherwise it panics
(returns no value). -/
theorem new_ok_iff (T : Type) (cap align : Nat) :
    new T cap align = some [[]] ↔
      0 < cap ∧ align < ALIGNMENT ∧ ALIGNMENT % align = 0 := by
  unfold new
  split_ifs with h1 h2 h3 <;> simp_all

/-! ### The logical sequence only grows -/

/-- C7: an append never disturbs existing content: appending `[]` is a
complete no-op, and any logical index valid before an append still holds the
very same element afterwards. -/
theorem append_preserves_prefix {T : Type} (cap : Nat) (hcap : 0 < cap)
    (chunks : List (List T)) :
    appendChain cap (appendAll cap chunks) ([] : List T) = appendAll cap chunks ∧
    ∀ (vals : List T) (i : Nat) (x : T),
      (appendAll cap chunks).flatten[i]? = some x →
      (appendChain cap (appendAll cap chunks) vals).flatten[i]? = some x := by
  constructor
  · exact appendChain_nil cap _
  · intro vals i x hx
    rw [appendAll_eq_canonChain cap hcap] at hx ⊢
    rw [appendChain_canonChain cap hcap]
    rw [flatten_canonChain cap hcap] at hx ⊢
    have hi : i < chunks.flatten.length := by
      by_contra h
      rw [List.getElem?_eq_none (by omega)] at hx
      exact Option.noConfusion hx
    rw [List.getElem?_append_left hi]
    exact hx

theorem append_preserves_prefix_witness :
    0 < 2 ∧
    appendChain 2 (appendAll 2 [[5, 6, 7]]) ([] : List ℕ) = appendAll 2 [[5, 6, 7]] ∧
    (appendChain 2 (appendAll 2 [[5, 6, 7]]) [9]).flatten[1]? = some 6 := by
  have h := append_preserves_prefix 2 (by decide) [[5, 6, 7]]
  refine ⟨by decide, h.1, h.2 [9] 1 6 ?_⟩
  simp [appendAll, appendChain, newSegs]

/-! ### Packing invariants of reachable chains -/

/-- C8: after any sequence of appends, every segment having a successor is
packed to exactly `segment_length` elements; only the final segment may be
partially filled (every segment stays within capacity). -/
theorem packed_invariant {T : Type} (cap : Nat) (hcap : 0 < cap)
    (chunks : List (List T)) :
    (∀ s ∈ (appendAll cap chunks).dropLast, s.length = cap) ∧
    (∀ s ∈ appendAll cap chunks, s.length ≤ cap) := by
  rw [appendAll_eq_canonChain cap hcap]
  rcases hf : chunks.flatten with _ | ⟨w, ws⟩
  · constructor
    · intro s hs
      simp [canonChain] at hs
    · intro s hs
      simp only [canonChain, List.mem_singleton] at hs
      subst hs
      exact Nat.zero_le cap
  · have hwf := WFChain_newSegs cap (w :: ws) hcap
    exact ⟨WFChain_dropLast hwf, WFChain_mem_le hwf⟩

theorem packed_invariant_witness :
    0 < 3 ∧
    (∀ s ∈ (appendAll 3 [[0, 1], [2, 3, 4]] : List (List ℕ)).dropLast, s.length = 3) ∧
    (∀ s ∈ (appendAll 3 [[0, 1], [2, 3, 4]] : List (List ℕ)), s.length ≤ 3) :=
  ⟨by decide, (packed_invariant 3 (by decide) [[0, 1], [2, 3, 4]]).1,
    (packed_invariant 3 (by decide) [[0, 1], [2, 3, 4]]).2⟩

/-- C9: new segments are allocated only when input remains to fill them, so
every segment after the head holds at least one element, and the tail's
occupied prefix is empty only for the original head with nothing ever
appended (the chain is still `[[]]` and the logical sequence empty). -/
theorem nonempty_segments_invariant {T : Type} (cap : Nat) (hcap : 0 < cap)
    (chunks : List (List T)) :
    (∀ s ∈ (appendAll cap chunks).drop 1, s ≠ []) ∧
    ((appendAll cap chunks).getLast? = some ([] : List T) →
      appendAll cap chunks = [[]] ∧ chunks.flatten = []) := by
  rw [appendAll_eq_canonChain cap hcap]
  rcases hf : chunks.flatten with _ | ⟨w, ws⟩
  · constructor
    · intro s hs
      simp [canonChain] at hs
    · intro _
      exact ⟨rfl, rfl⟩
  · have hwf := WFChain_newSegs cap (w :: ws) hcap
    constructor
    · intro s hs
      exact WFChain_mem_ne_nil hwf s (List.mem_of_mem_drop hs)
    · intro hlast
      exact absurd rfl
        (WFChain_mem_ne_nil hwf [] (List.mem_of_getLast?_eq_some hlast))

theorem nonempty_segments_invariant_witness :
    0 < 3 ∧
    (∀ s ∈ (appendAll 3 [[0, 1], [2, 3, 4]] : List (List ℕ)).drop 1, s ≠ []) ∧
    (appendAll 3 ([[]] : List (List ℕ))).getLast? = some [] ∧
    appendAll 3 ([[]] : List (List ℕ)) = [[]] := by
  have h1 := (nonempty_segments_invariant 3 (by decide) [[0, 1], [2, 3, 4]]).1
  have h2 := nonempty_segments_invariant 3 (by decide) ([[]] : List (List ℕ))
  have hev : appendAll 3 ([[]] : List (List ℕ)) = [[]] := by
    simp [appendAll, appendChain, newSegs]
  exact ⟨by decide, h1, by rw [hev]; rfl, (h2.2 (by rw [hev]; rfl)).1⟩

end Caos
